import Mathlib

/-!
Shallow embedding of the github-action-analyzer core (Go) and proofs about it.

Go strings are modelled as lists of characters.  The Go standard-library
functions the analyzer uses (strings.HasPrefix, strings.TrimPrefix,
strings.Contains, strings.Split with a one-character separator,
strings.ToLower on the ASCII range, strconv.Atoi over a 64-bit int) are
re-defined on that representation.  time.Duration values are nanosecond
counts modelled as integers, with two's-complement 64-bit wrap-around
applied where the Go code adds durations.
-/

/-- A Go string, modelled as its list of characters. -/
abbrev GoString := List Char

/-- Go strings.HasPrefix s pre. -/
def goHasPre : GoString → GoString → Bool
  | _, [] => true
  | [], _ :: _ => false
  | c :: cs, p :: ps => c == p && goHasPre cs ps

/-- Go strings.TrimPrefix s pre: s without pre when pre leads s, s unchanged otherwise. -/
def goTrimPre (s pre : GoString) : GoString :=
  if goHasPre s pre then s.drop pre.length else s

/-- Go strings.Contains s sub. -/
def goContains (s sub : GoString) : Bool :=
  if goHasPre s sub then true
  else
    match s with
    | [] => false
    | _ :: cs => goContains cs sub

/-- Go strings.Split s sep for a one-character separator sep. -/
def goSplitChar (sep : Char) : GoString → List GoString
  | [] => [[]]
  | c :: cs =>
    if c == sep then [] :: goSplitChar sep cs
    else
      match goSplitChar sep cs with
      | [] => [[c]]
      | h :: t => (c :: h) :: t

/-- Go strings.ToLower on one character, modelled on the ASCII range
(every signature pattern in the analyzer is ASCII). -/
def goToLowerChar (c : Char) : Char :=
  if 65 ≤ c.toNat ∧ c.toNat ≤ 90 then Char.ofNat (c.toNat + 32) else c

/-- Go strings.ToLower, modelled on the ASCII range. -/
def goToLower (s : GoString) : GoString := s.map goToLowerChar

/-- Value of a digit string, most significant digit first. -/
def digitsVal (s : GoString) : Nat :=
  s.foldl (fun acc c => 10 * acc + (c.toNat - 48)) 0

/-- Go strconv.Atoi before the 64-bit range check: an optional sign followed
by a nonempty run of decimal digits; none models a syntax error. -/
def goParseDec (s : GoString) : Option Int :=
  match s with
  | [] => none
  | '+' :: rest =>
    if rest ≠ [] ∧ rest.all Char.isDigit then some (digitsVal rest) else none
  | '-' :: rest =>
    if rest ≠ [] ∧ rest.all Char.isDigit then some (-(digitsVal rest : Int)) else none
  | _ => if s.all Char.isDigit then some (digitsVal s) else none

/-- Smallest Go int64 value. -/
def int64Min : Int := -(2 ^ 63)

/-- Largest Go int64 value. -/
def int64Max : Int := 2 ^ 63 - 1

/-- Go strconv.Atoi when the caller checks the error: some v exactly when
Atoi returns a nil error (valid syntax, value within the 64-bit range). -/
def goAtoi (s : GoString) : Option Int :=
  match goParseDec s with
  | none => none
  | some v => if int64Min ≤ v ∧ v ≤ int64Max then some v else none

/-- Go strconv.Atoi when the caller discards the error (v, _ := ...):
0 on a syntax error, the clamped value on a range error. -/
def goAtoiVal (s : GoString) : Int :=
  match goParseDec s with
  | none => 0
  | some v => if v < int64Min then int64Min else if v > int64Max then int64Max else v

/-- Two's-complement wrap of a 64-bit integer addition result (Go int64 overflow). -/
def wrap64 (x : Int) : Int := (x + 2 ^ 63) % 2 ^ 64 - 2 ^ 63

example : goSplitChar '.' "1.24.0".data = ["1".data, "24".data, "0".data] := by decide
example : goSplitChar '.' [] = [[]] := by decide
example : goTrimPre "go1.24.0".data "go".data = "1.24.0".data := by decide
example : goContains "abc".data [] = true := by decide
example : goContains "xx##[group]y".data "##[group]".data = true := by decide
example : goToLower "AbC-9".data = "abc-9".data := by decide
example : goAtoi "21".data = some 21 := by decide
example : goAtoi "x21".data = none := by decide
example : goAtoi "-4".data = some (-4) := by decide
example : goAtoiVal "x21".data = 0 := by decide
example : wrap64 5 = 5 := by decide

/-! ### StepLogParser: analyzeSteps (src/internal/analyzer/analyzer.go, lines 509-537) -/

/-- models.StepAnalysis.  The recommendations field of the Go struct is kept
even though the parser never fills it. -/
structure StepAnalysis where
  name : GoString
  executionTime : Int
  isSlowStep : Bool
  recommendations : List GoString := []
deriving DecidableEq

/-- The step-boundary marker literal of analyzeSteps. -/
def groupMarker : GoString := "##[group]".data

/-- 5 * time.Minute in nanoseconds. -/
def fiveMinutes : Int := 300000000000

/-- Loop state of analyzeSteps: the accumulated steps, the running total
duration, the currently open step name, its start time, and how many
boundary lines were seen so far (the index into the wall-clock oracle). -/
structure StepScanState where
  steps : List StepAnalysis
  totalDuration : Int
  currentStep : GoString
  startTime : Int
  tick : Nat

/-- One iteration of the line loop of analyzeSteps.  The wall clock
(time.Since followed by time.Now at a boundary line) is supplied by the
oracle clock and is modelled as one reading per boundary line. -/
def stepScanLine (clock : Nat → Int) (st : StepScanState) (line : GoString) : StepScanState :=
  if goContains line groupMarker then
    let now := clock st.tick
    let st1 :=
      if st.currentStep = [] then st
      else
        let d := now - st.startTime
        { st with
          steps := st.steps ++ [{ name := st.currentStep, executionTime := d,
                                  isSlowStep := decide (d > fiveMinutes) }],
          totalDuration := wrap64 (st.totalDuration + d) }
    { st1 with currentStep := goTrimPre line groupMarker, startTime := now, tick := st.tick + 1 }
  else st

/-- analyzeSteps: parses job-log text into step records and a total
duration; clock models the wall clock read at each boundary line. -/
def analyzeSteps (clock : Nat → Int) (logs : GoString) : List StepAnalysis × Int :=
  let lines := goSplitChar '\n' logs
  let final := lines.foldl (stepScanLine clock) ⟨[], 0, [], 0, 0⟩
  (final.steps, final.totalDuration)

/-- The lines of a log that analyzeSteps treats as step boundaries. -/
def boundaryLines (logs : GoString) : List GoString :=
  (goSplitChar '\n' logs).filter (fun l => goContains l groupMarker)

/-- The step name analyzeSteps records at each boundary line. -/
def boundaryNames (logs : GoString) : List GoString :=
  (boundaryLines logs).map (fun l => goTrimPre l groupMarker)

theorem stepScan_id (clock : Nat → Int) :
    ∀ (lines : List GoString) (st : StepScanState),
      (∀ l ∈ lines, goContains l groupMarker = false) →
      lines.foldl (stepScanLine clock) st = st := by
  intro lines
  induction lines with
  | nil => intro st _; rfl
  | cons l ls ih =>
    intro st h
    have hl : goContains l groupMarker = false := h l (List.mem_cons_self l ls)
    have hrest : ∀ x ∈ ls, goContains x groupMarker = false :=
      fun x hx => h x (List.mem_cons_of_mem l hx)
    simp only [List.foldl_cons, stepScanLine, hl, Bool.false_eq_true, if_false]
    exact ih st hrest

theorem stepScan_names (clock : Nat → Int) :
    ∀ (lines : List GoString) (st : StepScanState),
      ((lines.foldl (stepScanLine clock) st).steps).map StepAnalysis.name =
        st.steps.map StepAnalysis.name ++
          ((st.currentStep ::
              (lines.filter (fun l => goContains l groupMarker)).map
                (fun l => goTrimPre l groupMarker)).dropLast).filter
            (fun n => n ≠ []) := by
  intro lines
  induction lines with
  | nil => intro st; simp
  | cons l ls ih =>
    intro st
    by_cases hl : goContains l groupMarker
    · have hstep : stepScanLine clock st l =
        { steps := st.steps ++
            (if st.currentStep = [] then []
             else [{ name := st.currentStep,
                     executionTime := clock st.tick - st.startTime,
                     isSlowStep := decide (clock st.tick - st.startTime > fiveMinutes) }]),
          totalDuration :=
            (if st.currentStep = [] then st.totalDuration
             else wrap64 (st.totalDuration + (clock st.tick - st.startTime))),
          currentStep := goTrimPre l groupMarker,
          startTime := clock st.tick,
          tick := st.tick + 1 } := by
        by_cases hc : st.currentStep = [] <;> simp [stepScanLine, hl, hc]
      rw [List.foldl_cons, hstep, ih]
      by_cases hc : st.currentStep = [] <;>
        simp [hc, hl, List.filter_cons, List.dropLast, List.append_assoc]
    · have hstep : stepScanLine clock st l = st := by
        simp [stepScanLine, hl]
      rw [List.foldl_cons, hstep, ih]
      simp [List.filter_cons, hl]

/-- The recorded names of analyzeSteps, in closed form: the non-empty
boundary names of all boundary lines except the last one. -/
theorem analyzeSteps_names (clock : Nat → Int) (logs : GoString) :
    ((analyzeSteps clock logs).1).map StepAnalysis.name =
      ((boundaryNames logs).dropLast).filter (fun n => n ≠ []) := by
  unfold analyzeSteps boundaryNames boundaryLines
  rw [stepScan_names]
  rcases h : (goSplitChar '\n' logs).filter (fun l => goContains l groupMarker) with _ | ⟨n, t⟩
  · simp
  · simp [List.dropLast, List.filter_cons]

/-- Claim C1: a log with zero boundary markers yields an empty step list and a
zero total duration; a log whose single opened step is never followed by
another boundary marker also yields an empty step list (no implicit close at
end of input); in general every emitted step's name is one of the boundary
names other than the last one, i.e. only steps followed by a subsequent
boundary marker are recorded. -/
theorem analyzeSteps_boundary_policy (clock : Nat → Int) (logs : GoString) :
    (boundaryLines logs = [] → analyzeSteps clock logs = ([], 0)) ∧
    ((boundaryLines logs).length = 1 → (analyzeSteps clock logs).1 = []) ∧
    (∀ s ∈ (analyzeSteps clock logs).1,
      s.name ∈ (boundaryNames logs).dropLast) := by
  refine ⟨?_, ?_, ?_⟩
  · intro h
    have hall : ∀ l ∈ goSplitChar '\n' logs, goContains l groupMarker = false := by
      intro l hl
      by_contra hq
      have : l ∈ boundaryLines logs := by
        unfold boundaryLines
        exact List.mem_filter.mpr ⟨hl, by simpa using hq⟩
      simp [h] at this
    have hfold := stepScan_id clock (goSplitChar '\n' logs) ⟨[], 0, [], 0, 0⟩ hall
    simp only [analyzeSteps]
    rw [hfold]
  · intro h
    have hmap := analyzeSteps_names clock logs
    have hlen : (boundaryNames logs).length = 1 := by
      unfold boundaryNames
      simpa using h
    have hdrop : (boundaryNames logs).dropLast = [] := by
      rcases hb : boundaryNames logs with _ | ⟨n, t⟩
      · simp
      · rw [hb] at hlen
        simp only [List.length_cons, Nat.add_left_eq_self] at hlen
        have ht : t = [] := List.length_eq_zero.mp hlen
        simp [ht]
    rw [hdrop] at hmap
    simp only [List.filter_nil] at hmap
    exact List.map_eq_nil_iff.mp hmap
  · intro s hs
    have hmap := analyzeSteps_names clock logs
    have : s.name ∈ ((analyzeSteps clock logs).1).map StepAnalysis.name :=
      List.mem_map_of_mem StepAnalysis.name hs
    rw [hmap] at this
    exact (List.mem_filter.mp this).1

/-- A step parser that follows the claim's words instead of the code: a line
is a boundary only when the marker stands at the start of the line, and the
recorded name is the part of the line after the marker.  [claim-side
definition, for comparison with stepScanLine] -/
def claimStepScanLine (clock : Nat → Int) (st : StepScanState) (line : GoString) : StepScanState :=
  if goHasPre line groupMarker then
    let now := clock st.tick
    let st1 :=
      if st.currentStep = [] then st
      else
        let d := now - st.startTime
        { st with
          steps := st.steps ++ [{ name := st.currentStep, executionTime := d,
                                  isSlowStep := decide (d > fiveMinutes) }],
          totalDuration := wrap64 (st.totalDuration + d) }
    { st1 with currentStep := line.drop groupMarker.length, startTime := now, tick := st.tick + 1 }
  else st

/-- The claim's step parser over a whole log.  [claim-side definition] -/
def claimAnalyzeSteps (clock : Nat → Int) (logs : GoString) : List StepAnalysis × Int :=
  let lines := goSplitChar '\n' logs
  let final := lines.foldl (claimStepScanLine clock) ⟨[], 0, [], 0, 0⟩
  (final.steps, final.totalDuration)

/-- Claim C2 fails on the code: in the log "x##[group]foo\n##[group]bar" the
first line does not start with the marker, yet analyzeSteps records a step
from it, and the recorded name is the whole line rather than the part after
the marker; a parser following the claim's words records no step at all. -/
theorem analyzeSteps_marker_position_cex :
    ((analyzeSteps (fun _ => 0) "x##[group]foo\n##[group]bar".data).1).map StepAnalysis.name =
        ["x##[group]foo".data] ∧
    goHasPre "x##[group]foo".data groupMarker = false ∧
    ("x##[group]foo".data : GoString) ≠ "foo".data ∧
    (claimAnalyzeSteps (fun _ => 0) "x##[group]foo\n##[group]bar".data).1 = [] := by
  refine ⟨by decide, by decide, by decide, by decide⟩

/-- Claim C2 amended: analyzeSteps treats every line in which the marker
occurs anywhere (strings.Contains) as a boundary; the recorded name is the
line with the marker stripped when the line starts with the marker and the
whole line otherwise (strings.TrimPrefix); the emitted steps are exactly the
non-empty recorded names of all boundary lines but the last. -/
theorem analyzeSteps_marker_anywhere (clock : Nat → Int) (logs : GoString) :
    ((analyzeSteps clock logs).1).map StepAnalysis.name =
      ((((goSplitChar '\n' logs).filter (fun l => goContains l groupMarker)).map
          (fun l => goTrimPre l groupMarker)).dropLast).filter (fun n => n ≠ []) := by
  have h := analyzeSteps_names clock logs
  unfold boundaryNames boundaryLines at h
  exact h

/-! ### VersionResolver: GetLatestVersion (src/internal/analyzer/analyzer.go, lines 41-133) -/

/-- The outcome of the external latest-release lookup
(GithubClient.GetLatestRelease followed by release.GetTagName): a transport
failure or the release tag text. -/
abbrev ReleaseLookup := Except Unit GoString

/-- GetLatestVersion of GitHubVersionChecker.  The error value models the
fmt.Errorf message of the default branch. -/
def GetLatestVersion (lang : GoString) (lookup : ReleaseLookup) : Except GoString GoString :=
  if lang = "go".data then
    match lookup with
    | .error _ => .ok "1.24".data
    | .ok tag =>
      match goSplitChar '.' (goTrimPre tag "go".data) with
      | p0 :: p1 :: _ => .ok (p0 ++ '.' :: p1)
      | _ => .ok "1.24".data
  else if lang = "node".data then
    match lookup with
    | .error _ => .ok "20.11".data
    | .ok tag =>
      let version := goTrimPre tag "v".data
      if goContains version "nightly".data ∨ goContains version "test".data then
        .ok "20.11".data
      else
        match goSplitChar '.' version with
        | p0 :: p1 :: _ =>
          if goAtoiVal p0 > 20 then .ok "20.11".data else .ok (p0 ++ '.' :: p1)
        | _ => .ok "20.11".data
  else if lang = "python".data then
    match lookup with
    | .error _ => .ok "3.12".data
    | .ok tag =>
      let version := goTrimPre tag "v".data
      if goContains version "a".data ∨ goContains version "b".data ∨
          goContains version "rc".data then
        .ok "3.12".data
      else
        match goSplitChar '.' version with
        | p0 :: p1 :: _ => .ok (p0 ++ '.' :: p1)
        | _ => .ok "3.12".data
  else if lang = "java".data then
    match lookup with
    | .error _ => .ok "17".data
    | .ok tag =>
      match goSplitChar '.' (goTrimPre tag "jdk-".data) with
      | p0 :: _ => .ok p0
      | [] => .ok "17".data
  else if lang = "ruby".data then
    match lookup with
    | .error _ => .ok "3.2".data
    | .ok tag =>
      match goSplitChar '.' (goTrimPre tag "v".data) with
      | p0 :: p1 :: _ => .ok (p0 ++ '.' :: p1)
      | _ => .ok "3.2".data
  else if lang = "rust".data then
    .ok "stable".data
  else if lang = "dotnet".data then
    match lookup with
    | .error _ => .ok "7.0".data
    | .ok tag =>
      match goSplitChar '.' (goTrimPre tag "v".data) with
      | p0 :: p1 :: _ => .ok (p0 ++ '.' :: p1)
      | _ => .ok "7.0".data
  else .error ("unsupported language: ".data ++ lang)

/-- The ecosystem ids GetLatestVersion supports. -/
def supportedEcosystems : List GoString :=
  ["go".data, "node".data, "python".data, "java".data, "ruby".data,
   "rust".data, "dotnet".data]

/-- The hardcoded per-ecosystem fallback constant, returned on transport
failure (for rust it is the unconditional result). -/
def fallbackVersion (lang : GoString) : GoString :=
  if lang = "go".data then "1.24".data
  else if lang = "node".data then "20.11".data
  else if lang = "python".data then "3.12".data
  else if lang = "java".data then "17".data
  else if lang = "ruby".data then "3.2".data
  else if lang = "rust".data then "stable".data
  else if lang = "dotnet".data then "7.0".data
  else []

example : GetLatestVersion "go".data (.ok "go1.24.0".data) = .ok "1.24".data := by rfl
example : GetLatestVersion "java".data (.ok "jdk-21.0.1".data) = .ok "21".data := by rfl
example : GetLatestVersion "node".data (.ok "v22.3.0".data) = .ok "20.11".data := by rfl
example : GetLatestVersion "node".data (.ok "v18.3.0".data) = .ok "18.3".data := by rfl


theorem goSplitChar_cons (sep c : Char) (cs : GoString) :
    goSplitChar sep (c :: cs) =
      if c == sep then [] :: goSplitChar sep cs
      else
        match goSplitChar sep cs with
        | [] => [[c]]
        | h :: t => (c :: h) :: t := rfl

theorem goSplitChar_ne_nil (sep : Char) (l : GoString) : goSplitChar sep l ≠ [] := by
  induction l with
  | nil => simp [goSplitChar]
  | cons c cs ih =>
    rw [goSplitChar_cons]
    by_cases h : (c == sep) = true
    · simp [h]
    · rw [if_neg (by simpa using h)]
      rcases hs : goSplitChar sep cs with _ | ⟨a, b⟩
      · simp
      · simp

theorem goSplitChar_sep_not_mem (sep : Char) :
    ∀ (l : GoString), ∀ x ∈ goSplitChar sep l, sep ∉ x := by
  intro l
  induction l with
  | nil =>
    intro x hx
    rw [show goSplitChar sep [] = [[]] from rfl, List.mem_singleton] at hx
    simp [hx]
  | cons c cs ih =>
    intro x hx
    rw [goSplitChar_cons] at hx
    by_cases h : (c == sep) = true
    · rw [if_pos h, List.mem_cons] at hx
      rcases hx with hx | hx
      · simp [hx]
      · exact ih x hx
    · rw [if_neg (by simpa using h)] at hx
      rcases hs : goSplitChar sep cs with _ | ⟨a, b⟩
      · exact absurd hs (goSplitChar_ne_nil sep cs)
      · rw [hs, List.mem_cons] at hx
        have hcne : c ≠ sep := by simpa using h
        have ha : sep ∉ a := ih a (by rw [hs]; exact List.mem_cons_self a b)
        rcases hx with hx | hx
        · subst hx
          rw [List.mem_cons]
          rintro (h1 | h1)
          · exact hcne h1.symm
          · exact ha h1
        · exact ih x (by rw [hs]; exact List.mem_cons_of_mem a hx)

theorem goSplitChar_append_cons (sep : Char) (b : GoString) :
    ∀ (a : GoString), sep ∉ a →
      goSplitChar sep (a ++ sep :: b) = a :: goSplitChar sep b := by
  intro a
  induction a with
  | nil =>
    intro _
    rw [List.nil_append, goSplitChar_cons]
    simp
  | cons c cs ih =>
    intro h
    have hc : c ≠ sep := fun he => h (by simp [he])
    have hcs : sep ∉ cs := fun hm => h (List.mem_cons_of_mem c hm)
    rw [List.cons_append, goSplitChar_cons, if_neg (by simpa using hc), ih hcs]

theorem goAtoiVal_of_goAtoi {s : GoString} {m : Int} (h : goAtoi s = some m) :
    goAtoiVal s = m := by
  unfold goAtoi at h
  split at h
  · exact absurd h (by simp)
  · rename_i v hp
    split at h
    · rename_i hr
      have hv : v = m := by simpa using h
      subst hv
      unfold goAtoiVal
      rw [hp]
      show (if v < int64Min then int64Min else if v > int64Max then int64Max else v) = v
      rw [if_neg (not_lt.mpr hr.1), if_neg (not_lt.mpr hr.2)]
    · exact absurd h (by simp)

theorem GetLatestVersion_go_eq (lookup : ReleaseLookup) :
    GetLatestVersion "go".data lookup =
      match lookup with
      | .error _ => .ok "1.24".data
      | .ok tag =>
        match goSplitChar '.' (goTrimPre tag "go".data) with
        | p0 :: p1 :: _ => .ok (p0 ++ '.' :: p1)
        | _ => .ok "1.24".data := rfl

theorem GetLatestVersion_node_eq (lookup : ReleaseLookup) :
    GetLatestVersion "node".data lookup =
      match lookup with
      | .error _ => .ok "20.11".data
      | .ok tag =>
        if goContains (goTrimPre tag "v".data) "nightly".data ∨
            goContains (goTrimPre tag "v".data) "test".data then
          .ok "20.11".data
        else
          match goSplitChar '.' (goTrimPre tag "v".data) with
          | p0 :: p1 :: _ =>
            if goAtoiVal p0 > 20 then .ok "20.11".data else .ok (p0 ++ '.' :: p1)
          | _ => .ok "20.11".data := rfl

theorem GetLatestVersion_python_eq (lookup : ReleaseLookup) :
    GetLatestVersion "python".data lookup =
      match lookup with
      | .error _ => .ok "3.12".data
      | .ok tag =>
        if goContains (goTrimPre tag "v".data) "a".data ∨
            goContains (goTrimPre tag "v".data) "b".data ∨
            goContains (goTrimPre tag "v".data) "rc".data then
          .ok "3.12".data
        else
          match goSplitChar '.' (goTrimPre tag "v".data) with
          | p0 :: p1 :: _ => .ok (p0 ++ '.' :: p1)
          | _ => .ok "3.12".data := rfl

theorem GetLatestVersion_java_eq (lookup : ReleaseLookup) :
    GetLatestVersion "java".data lookup =
      match lookup with
      | .error _ => .ok "17".data
      | .ok tag =>
        match goSplitChar '.' (goTrimPre tag "jdk-".data) with
        | p0 :: _ => .ok p0
        | [] => .ok "17".data := rfl

theorem GetLatestVersion_ruby_eq (lookup : ReleaseLookup) :
    GetLatestVersion "ruby".data lookup =
      match lookup with
      | .error _ => .ok "3.2".data
      | .ok tag =>
        match goSplitChar '.' (goTrimPre tag "v".data) with
        | p0 :: p1 :: _ => .ok (p0 ++ '.' :: p1)
        | _ => .ok "3.2".data := rfl

theorem GetLatestVersion_rust_eq (lookup : ReleaseLookup) :
    GetLatestVersion "rust".data lookup = .ok "stable".data := rfl

theorem GetLatestVersion_dotnet_eq (lookup : ReleaseLookup) :
    GetLatestVersion "dotnet".data lookup =
      match lookup with
      | .error _ => .ok "7.0".data
      | .ok tag =>
        match goSplitChar '.' (goTrimPre tag "v".data) with
        | p0 :: p1 :: _ => .ok (p0 ++ '.' :: p1)
        | _ => .ok "7.0".data := rfl

/-- The normalization the claim describes, one rule for every ecosystem:
strip the known prefix, fall back when a pre-release marker substring is
present, then keep the first two numeric dot-components; with fewer than two
components use the fallback.  [claim-side definition, for comparison with
GetLatestVersion] -/
def claimNormalize (pre fallback : GoString) (markers : List GoString) (tag : GoString) :
    GoString :=
  let version := goTrimPre tag pre
  if markers.any (fun m => goContains version m) then fallback
  else
    match goSplitChar '.' version with
    | p0 :: p1 :: _ =>
      if p0 ≠ [] ∧ p1 ≠ [] ∧ p0.all Char.isDigit ∧ p1.all Char.isDigit then
        p0 ++ '.' :: p1
      else fallback
    | _ => fallback

/-- Claim C3 fails on the code: for ecosystem java with tag "jdk-21.0.1" the
claim's normalization keeps the first two numeric components, "21.0", but
GetLatestVersion returns only the first component, "21". -/
theorem GetLatestVersion_normalize_cex :
    GetLatestVersion "java".data (.ok "jdk-21.0.1".data) = .ok "21".data ∧
    claimNormalize "jdk-".data "17".data [] "jdk-21.0.1".data = "21.0".data ∧
    ("21".data : GoString) ≠ "21.0".data :=
  ⟨by rfl, by rfl, by decide⟩

/-- What GetLatestVersion computes on a successful lookup, per ecosystem
(the amended normalization): go, python, ruby and dotnet strip their prefix
("go" for go, "v" otherwise), python falls back on an "a"/"b"/"rc" substring,
and both return the first two dot-components (not checked numeric) or the
fallback when fewer than two exist; node additionally falls back on a
"nightly"/"test" substring and when its first component parses above 20;
java strips "jdk-" and returns only the first component; rust is always
"stable".  [amended-claim definition] -/
def amendedNormalize (lang tag : GoString) : GoString :=
  if lang = "go".data then
    match goSplitChar '.' (goTrimPre tag "go".data) with
    | p0 :: p1 :: _ => p0 ++ '.' :: p1
    | _ => "1.24".data
  else if lang = "node".data then
    if goContains (goTrimPre tag "v".data) "nightly".data ∨
        goContains (goTrimPre tag "v".data) "test".data then
      "20.11".data
    else
      match goSplitChar '.' (goTrimPre tag "v".data) with
      | p0 :: p1 :: _ =>
        if goAtoiVal p0 > 20 then "20.11".data else p0 ++ '.' :: p1
      | _ => "20.11".data
  else if lang = "python".data then
    if goContains (goTrimPre tag "v".data) "a".data ∨
        goContains (goTrimPre tag "v".data) "b".data ∨
        goContains (goTrimPre tag "v".data) "rc".data then
      "3.12".data
    else
      match goSplitChar '.' (goTrimPre tag "v".data) with
      | p0 :: p1 :: _ => p0 ++ '.' :: p1
      | _ => "3.12".data
  else if lang = "java".data then
    match goSplitChar '.' (goTrimPre tag "jdk-".data) with
    | p0 :: _ => p0
    | [] => "17".data
  else if lang = "ruby".data then
    match goSplitChar '.' (goTrimPre tag "v".data) with
    | p0 :: p1 :: _ => p0 ++ '.' :: p1
    | _ => "3.2".data
  else if lang = "rust".data then "stable".data
  else if lang = "dotnet".data then
    match goSplitChar '.' (goTrimPre tag "v".data) with
    | p0 :: p1 :: _ => p0 ++ '.' :: p1
    | _ => "7.0".data
  else []

theorem amendedNormalize_go_eq (tag : GoString) :
    amendedNormalize "go".data tag =
      match goSplitChar '.' (goTrimPre tag "go".data) with
      | p0 :: p1 :: _ => p0 ++ '.' :: p1
      | _ => "1.24".data := rfl

theorem amendedNormalize_node_eq (tag : GoString) :
    amendedNormalize "node".data tag =
      if goContains (goTrimPre tag "v".data) "nightly".data ∨
          goContains (goTrimPre tag "v".data) "test".data then
        "20.11".data
      else
        match goSplitChar '.' (goTrimPre tag "v".data) with
        | p0 :: p1 :: _ =>
          if goAtoiVal p0 > 20 then "20.11".data else p0 ++ '.' :: p1
        | _ => "20.11".data := rfl

theorem amendedNormalize_python_eq (tag : GoString) :
    amendedNormalize "python".data tag =
      if goContains (goTrimPre tag "v".data) "a".data ∨
          goContains (goTrimPre tag "v".data) "b".data ∨
          goContains (goTrimPre tag "v".data) "rc".data then
        "3.12".data
      else
        match goSplitChar '.' (goTrimPre tag "v".data) with
        | p0 :: p1 :: _ => p0 ++ '.' :: p1
        | _ => "3.12".data := rfl

theorem amendedNormalize_java_eq (tag : GoString) :
    amendedNormalize "java".data tag =
      match goSplitChar '.' (goTrimPre tag "jdk-".data) with
      | p0 :: _ => p0
      | [] => "17".data := rfl

theorem amendedNormalize_ruby_eq (tag : GoString) :
    amendedNormalize "ruby".data tag =
      match goSplitChar '.' (goTrimPre tag "v".data) with
      | p0 :: p1 :: _ => p0 ++ '.' :: p1
      | _ => "3.2".data := rfl

theorem amendedNormalize_dotnet_eq (tag : GoString) :
    amendedNormalize "dotnet".data tag =
      match goSplitChar '.' (goTrimPre tag "v".data) with
      | p0 :: p1 :: _ => p0 ++ '.' :: p1
      | _ => "7.0".data := rfl

/-- Claim C3 amended: on a successful lookup GetLatestVersion returns, with
no error, exactly the amended per-ecosystem normalization of the tag; in
particular for go with tag "go1.24.0" it returns "1.24". -/
theorem GetLatestVersion_normalize_amended (tag : GoString) :
    (∀ lang ∈ supportedEcosystems,
      GetLatestVersion lang (.ok tag) = .ok (amendedNormalize lang tag)) ∧
    GetLatestVersion "go".data (.ok "go1.24.0".data) = .ok "1.24".data := by
  constructor
  · intro lang hmem
    simp only [supportedEcosystems, List.mem_cons, List.not_mem_nil, or_false] at hmem
    rcases hmem with rfl | rfl | rfl | rfl | rfl | rfl | rfl
    · rw [GetLatestVersion_go_eq, amendedNormalize_go_eq]
      rcases h : goSplitChar '.' (goTrimPre tag "go".data) with _ | ⟨p0, _ | ⟨p1, r⟩⟩ <;>
        simp [h]
    · rw [GetLatestVersion_node_eq, amendedNormalize_node_eq]
      by_cases hn : goContains (goTrimPre tag "v".data) "nightly".data ∨
          goContains (goTrimPre tag "v".data) "test".data
      · simp [hn]
      · rcases h : goSplitChar '.' (goTrimPre tag "v".data) with _ | ⟨p0, rest⟩
        · simp [hn, h]
        · rcases rest with _ | ⟨p1, r⟩
          · simp [hn, h]
          · by_cases h20 : goAtoiVal p0 > 20 <;> simp [hn, h, h20]
    · rw [GetLatestVersion_python_eq, amendedNormalize_python_eq]
      by_cases hn : goContains (goTrimPre tag "v".data) "a".data ∨
          goContains (goTrimPre tag "v".data) "b".data ∨
          goContains (goTrimPre tag "v".data) "rc".data
      · simp [hn]
      · rcases h : goSplitChar '.' (goTrimPre tag "v".data) with _ | ⟨p0, _ | ⟨p1, r⟩⟩ <;>
          simp [hn, h]
    · rw [GetLatestVersion_java_eq, amendedNormalize_java_eq]
      rcases h : goSplitChar '.' (goTrimPre tag "jdk-".data) with _ | ⟨p0, r⟩ <;> simp [h]
    · rw [GetLatestVersion_ruby_eq, amendedNormalize_ruby_eq]
      rcases h : goSplitChar '.' (goTrimPre tag "v".data) with _ | ⟨p0, _ | ⟨p1, r⟩⟩ <;>
        simp [h]
    · rfl
    · rw [GetLatestVersion_dotnet_eq, amendedNormalize_dotnet_eq]
      rcases h : goSplitChar '.' (goTrimPre tag "v".data) with _ | ⟨p0, _ | ⟨p1, r⟩⟩ <;>
        simp [h]
  · rfl

theorem GetLatestVersion_supported_ok (lang : GoString) (hmem : lang ∈ supportedEcosystems)
    (lookup : ReleaseLookup) : ∃ v, GetLatestVersion lang lookup = .ok v := by
  simp only [supportedEcosystems, List.mem_cons, List.not_mem_nil, or_false] at hmem
  rcases hmem with rfl | rfl | rfl | rfl | rfl | rfl | rfl
  · rw [GetLatestVersion_go_eq]
    cases lookup with
    | error u => exact ⟨_, rfl⟩
    | ok tag =>
      rcases h : goSplitChar '.' (goTrimPre tag "go".data) with _ | ⟨p0, _ | ⟨p1, r⟩⟩ <;>
        simp [h]
  · rw [GetLatestVersion_node_eq]
    cases lookup with
    | error u => exact ⟨_, rfl⟩
    | ok tag =>
      by_cases hn : goContains (goTrimPre tag "v".data) "nightly".data ∨
          goContains (goTrimPre tag "v".data) "test".data
      · simp [hn]
      · rcases h : goSplitChar '.' (goTrimPre tag "v".data) with _ | ⟨p0, rest⟩
        · simp [hn, h]
        · rcases rest with _ | ⟨p1, r⟩
          · simp [hn, h]
          · by_cases h20 : goAtoiVal p0 > 20 <;> simp [hn, h, h20]
  · rw [GetLatestVersion_python_eq]
    cases lookup with
    | error u => exact ⟨_, rfl⟩
    | ok tag =>
      by_cases hn : goContains (goTrimPre tag "v".data) "a".data ∨
          goContains (goTrimPre tag "v".data) "b".data ∨
          goContains (goTrimPre tag "v".data) "rc".data
      · simp [hn]
      · rcases h : goSplitChar '.' (goTrimPre tag "v".data) with _ | ⟨p0, _ | ⟨p1, r⟩⟩ <;>
          simp [hn, h]
  · rw [GetLatestVersion_java_eq]
    cases lookup with
    | error u => exact ⟨_, rfl⟩
    | ok tag =>
      rcases h : goSplitChar '.' (goTrimPre tag "jdk-".data) with _ | ⟨p0, r⟩ <;> simp [h]
  · rw [GetLatestVersion_ruby_eq]
    cases lookup with
    | error u => exact ⟨_, rfl⟩
    | ok tag =>
      rcases h : goSplitChar '.' (goTrimPre tag "v".data) with _ | ⟨p0, _ | ⟨p1, r⟩⟩ <;>
        simp [h]
  · exact ⟨_, rfl⟩
  · rw [GetLatestVersion_dotnet_eq]
    cases lookup with
    | error u => exact ⟨_, rfl⟩
    | ok tag =>
      rcases h : goSplitChar '.' (goTrimPre tag "v".data) with _ | ⟨p0, _ | ⟨p1, r⟩⟩ <;>
        simp [h]

/-- Claim C4: GetLatestVersion returns an error exactly when the ecosystem id
is none of go, node, python, java, ruby, rust, dotnet; for every supported
ecosystem a transport failure of the release lookup is swallowed and the
hardcoded per-ecosystem fallback constant is returned with no error. -/
theorem GetLatestVersion_error_iff_unsupported (lang : GoString) (lookup : ReleaseLookup) :
    ((∃ e, GetLatestVersion lang lookup = .error e) ↔ lang ∉ supportedEcosystems) ∧
    (lang ∈ supportedEcosystems →
      GetLatestVersion lang (.error ()) = .ok (fallbackVersion lang)) := by
  constructor
  · constructor
    · rintro ⟨e, he⟩ hmem
      obtain ⟨v, hv⟩ := GetLatestVersion_supported_ok lang hmem lookup
      rw [hv] at he
      exact absurd he (by simp)
    · intro hmem
      refine ⟨"unsupported language: ".data ++ lang, ?_⟩
      simp only [supportedEcosystems, List.mem_cons, List.not_mem_nil, or_false] at hmem
      push_neg at hmem
      obtain ⟨h1, h2, h3, h4, h5, h6, h7⟩ := hmem
      unfold GetLatestVersion
      rw [if_neg h1, if_neg h2, if_neg h3, if_neg h4, if_neg h5, if_neg h6, if_neg h7]
  · intro hmem
    simp only [supportedEcosystems, List.mem_cons, List.not_mem_nil, or_false] at hmem
    rcases hmem with rfl | rfl | rfl | rfl | rfl | rfl | rfl <;> rfl

/-- Claim C10: for ecosystem node, whenever the lookup succeeds and the first
dot-component of the prefix-stripped tag parses to an integer above 20,
GetLatestVersion returns the fallback "20.11"; consequently the major
component of a returned node version never parses to an integer above 20. -/
theorem GetLatestVersion_node_major_cap (tag : GoString) :
    ((∃ m, goAtoi ((goSplitChar '.' (goTrimPre tag "v".data)).headD []) = some m ∧ 20 < m) →
      GetLatestVersion "node".data (.ok tag) = .ok "20.11".data) ∧
    (∀ v, GetLatestVersion "node".data (.ok tag) = .ok v →
      ∀ m, goAtoi ((goSplitChar '.' v).headD []) = some m → m ≤ 20) := by
  have heq : GetLatestVersion "node".data (.ok tag) =
      (if goContains (goTrimPre tag "v".data) "nightly".data ∨
          goContains (goTrimPre tag "v".data) "test".data then
        .ok "20.11".data
      else
        match goSplitChar '.' (goTrimPre tag "v".data) with
        | p0 :: p1 :: _ =>
          if goAtoiVal p0 > 20 then .ok "20.11".data else .ok (p0 ++ '.' :: p1)
        | _ => .ok "20.11".data) := rfl
  have h2011 : ∀ m : Int,
      goAtoi ((goSplitChar '.' ("20.11".data : GoString)).headD []) = some m → m ≤ 20 := by
    intro m hm
    have hv : goAtoi ((goSplitChar '.' ("20.11".data : GoString)).headD []) = some 20 := by
      decide
    rw [hv] at hm
    have : (20 : Int) = m := by simpa using hm
    omega
  constructor
  · rintro ⟨m, hm, h20⟩
    rw [heq]
    by_cases hn : goContains (goTrimPre tag "v".data) "nightly".data ∨
        goContains (goTrimPre tag "v".data) "test".data
    · rw [if_pos hn]
    · rw [if_neg hn]
      rcases h : goSplitChar '.' (goTrimPre tag "v".data) with _ | ⟨p0, rest⟩
      · rfl
      · rcases rest with _ | ⟨p1, r⟩
        · rfl
        · rw [h, List.headD_cons] at hm
          have hval : goAtoiVal p0 = m := goAtoiVal_of_goAtoi hm
          simp [hval, h20]
  · intro v hv m hm
    rw [heq] at hv
    by_cases hn : goContains (goTrimPre tag "v".data) "nightly".data ∨
        goContains (goTrimPre tag "v".data) "test".data
    · rw [if_pos hn] at hv
      have hveq : ("20.11".data : GoString) = v := by simpa using hv
      rw [← hveq] at hm
      exact h2011 m hm
    · rw [if_neg hn] at hv
      rcases h : goSplitChar '.' (goTrimPre tag "v".data) with _ | ⟨p0, rest⟩
      · rw [h] at hv
        have hveq : ("20.11".data : GoString) = v := by simpa using hv
        rw [← hveq] at hm
        exact h2011 m hm
      · rcases rest with _ | ⟨p1, r⟩
        · rw [h] at hv
          have hveq : ("20.11".data : GoString) = v := by simpa using hv
          rw [← hveq] at hm
          exact h2011 m hm
        · rw [h] at hv
          have hv2 : (if goAtoiVal p0 > 20 then
                (Except.ok "20.11".data : Except GoString GoString)
              else Except.ok (p0 ++ '.' :: p1)) = Except.ok v := hv
          by_cases h20 : goAtoiVal p0 > 20
          · rw [if_pos h20] at hv2
            have hveq : ("20.11".data : GoString) = v := by simpa using hv2
            rw [← hveq] at hm
            exact h2011 m hm
          · rw [if_neg h20] at hv2
            have hveq : p0 ++ '.' :: p1 = v := by simpa using hv2
            have hp0 : ('.' : Char) ∉ p0 :=
              goSplitChar_sep_not_mem '.' (goTrimPre tag "v".data) p0
                (by rw [h]; exact List.mem_cons_self p0 (p1 :: r))
            rw [← hveq, goSplitChar_append_cons '.' p1 p0 hp0, List.headD_cons] at hm
            have hval : goAtoiVal p0 = m := goAtoiVal_of_goAtoi hm
            omega

/-! ### Staleness check: detectOutdatedVersion (analyzer.go, lines 1033-1066) -/

/-- The character class of the version regular expressions. -/
def isVerChar (c : Char) : Bool := c.isDigit || c == '.'

/-- An attempted match of the pattern pre ++ opt? ++ capture at the start of
s, where the capture is one or more version characters, with Go regexp
(greedy, backtracking) semantics; returns the capture group. -/
def verMatchAt (pre : GoString) (opt : Option Char) (s : GoString) : Option GoString :=
  if goHasPre s pre then
    let rest := s.drop pre.length
    match opt, rest with
    | some oc, c :: cs =>
      if c == oc then
        if cs.takeWhile isVerChar = [] then none else some (cs.takeWhile isVerChar)
      else if isVerChar c then some (rest.takeWhile isVerChar) else none
    | some _, [] => none
    | none, c :: _ => if isVerChar c then some (rest.takeWhile isVerChar) else none
    | none, [] => none
  else none

/-- regexp.FindStringSubmatch for the version patterns: the capture group at
the leftmost position where the pattern matches. -/
def findVerMatch (pre : GoString) (opt : Option Char) : GoString → Option GoString
  | [] => none
  | c :: cs =>
    match verMatchAt pre opt (c :: cs) with
    | some m => some m
    | none => findVerMatch pre opt cs

/-- The versionPatterns map of detectOutdatedVersion: each ecosystem's
regular expression as its literal head, its optional single character, and
the implicit trailing capture of version characters. -/
def versionPatternOf (lang : GoString) : Option (GoString × Option Char) :=
  if lang = "go".data then some ("go version go".data, none)
  else if lang = "node".data then some ("node ".data, some 'v')
  else if lang = "python".data then some ("python".data, some '-')
  else none

/-- The latestVersions map next to detectOutdatedVersion. -/
def latestVersions (lang : GoString) : GoString :=
  if lang = "go".data then "1.24".data
  else if lang = "node".data then "20".data
  else if lang = "python".data then "3.12".data
  else []

/-- detectOutdatedVersion: true when the version observed in the logs has a
major component strictly below the latest major. -/
def detectOutdatedVersion (logs lang : GoString) : Bool :=
  match versionPatternOf lang with
  | none => false
  | some (pre, opt) =>
    match findVerMatch pre opt logs with
    | none => false
    | some currentVersion =>
      match goSplitChar '.' currentVersion, goSplitChar '.' (latestVersions lang) with
      | c0 :: _, l0 :: _ =>
        match goAtoi c0, goAtoi l0 with
        | some currentMajor, some latestMajor => decide (currentMajor < latestMajor)
        | _, _ => false
      | _, _ => false

example : detectOutdatedVersion "go version go0.9.1 linux".data "go".data = true := by decide
example : detectOutdatedVersion "go version go1.21.3".data "go".data = false := by decide
example : detectOutdatedVersion "node v18.2.0".data "node".data = true := by decide
example : detectOutdatedVersion "node v20.1.0".data "node".data = false := by decide
example : detectOutdatedVersion "python-2.7".data "python".data = true := by decide
example : detectOutdatedVersion "no version here".data "go".data = false := by decide
example : detectOutdatedVersion "go version go1.21".data "java".data = false := by decide

/-- Claim C5: the staleness check flags exactly when the ecosystem has a
version regular expression, the expression matches the log text, both the
observed leading dot-component and the latest leading dot-component parse as
integers, and the observed one is strictly smaller; in every other case
(absent pattern, absent match, non-numeric component, equal or greater
major) it reports false and the check is total, never an error. -/
theorem detectOutdatedVersion_iff (logs lang : GoString) :
    detectOutdatedVersion logs lang = true ↔
      ∃ pre opt cur a b,
        versionPatternOf lang = some (pre, opt) ∧
        findVerMatch pre opt logs = some cur ∧
        goAtoi ((goSplitChar '.' cur).headD []) = some a ∧
        goAtoi ((goSplitChar '.' (latestVersions lang)).headD []) = some b ∧
        a < b := by
  constructor
  · intro h
    unfold detectOutdatedVersion at h
    split at h
    · exact absurd h (by simp)
    · rename_i pre opt hp
      split at h
      · exact absurd h (by simp)
      · rename_i cur hf
        split at h
        · rename_i c0 ct l0 lt hc hl
          split at h
          · rename_i a b ha hb
            refine ⟨pre, opt, cur, a, b, hp, hf, ?_, ?_, ?_⟩
            · rw [hc, List.headD_cons]; exact ha
            · rw [hl, List.headD_cons]; exact hb
            · simpa using h
          · exact absurd h (by simp)
        · exact absurd h (by simp)
  · rintro ⟨pre, opt, cur, a, b, hp, hf, ha, hb, hab⟩
    unfold detectOutdatedVersion
    rw [hp]
    rcases hc : goSplitChar '.' cur with _ | ⟨c0, ct⟩
    · exact absurd hc (goSplitChar_ne_nil '.' cur)
    · rcases hl : goSplitChar '.' (latestVersions lang) with _ | ⟨l0, lt⟩
      · exact absurd hl (goSplitChar_ne_nil '.' (latestVersions lang))
      · rw [hc, List.headD_cons] at ha
        rw [hl, List.headD_cons] at hb
        simp [hf, hc, hl, ha, hb, hab]

/-! ### LanguageDetector: detectLanguagesFromWorkflow (analyzer.go, lines 565-647) -/

/-- The languagePatterns table, in source order. -/
def languagePatterns : List (GoString × List GoString) :=
  [ ("go".data,
     ["go build".data, "go test".data, "setup-go".data, "actions/setup-go".data,
      "go-version".data, "uses: actions/setup-go".data]),
    ("node".data,
     ["npm".data, "yarn".data, "setup-node".data, "actions/setup-node".data,
      "package.json".data, "node-version".data, "uses: actions/setup-node".data]),
    ("python".data,
     ["pip".data, "python".data, "setup-python".data, "actions/setup-python".data,
      "requirements.txt".data, "python-version".data, "uses: actions/setup-python".data]),
    ("java".data,
     ["mvn".data, "maven".data, "gradle".data, "setup-java".data,
      "actions/setup-java".data, "pom.xml".data, "build.gradle".data,
      "java-version".data, "uses: actions/setup-java".data]),
    ("ruby".data,
     ["bundle".data, "gem".data, "setup-ruby".data, "ruby/setup-ruby".data,
      "Gemfile".data, "ruby-version".data, "uses: ruby/setup-ruby".data]),
    ("rust".data,
     ["cargo".data, "rustc".data, "rust-toolchain".data, "dtolnay/rust-toolchain".data,
      "Cargo.toml".data, "uses: dtolnay/rust-toolchain".data]),
    ("dotnet".data,
     ["dotnet".data, "setup-dotnet".data, "actions/setup-dotnet".data, ".csproj".data,
      ".sln".data, "nuget".data, "dotnet-version".data,
      "uses: actions/setup-dotnet".data]) ]

/-- The loop body of unique: the seen-keys map is modelled as a list of keys. -/
def uniqueLoop (keys : List GoString) (acc : List GoString) :
    List GoString → List GoString
  | [] => acc
  | x :: xs =>
    if x ∈ keys then uniqueLoop keys acc xs
    else uniqueLoop (x :: keys) (acc ++ [x]) xs

/-- unique (analyzer.go): removes duplicate entries keeping first occurrences. -/
def unique (l : List GoString) : List GoString := uniqueLoop [] [] l

/-- detectLanguagesFromWorkflow: the ecosystems whose signature substrings
occur case-insensitively in the workflow text. -/
def detectLanguagesFromWorkflow (content : GoString) : List GoString :=
  let lowerContent := goToLower content
  let languages := languagePatterns.foldl
    (fun acc p =>
      if p.2.any (fun pat => goContains lowerContent (goToLower pat)) then acc ++ [p.1]
      else acc) []
  unique languages

example : detectLanguagesFromWorkflow "uses: actions/setup-go\ngo-version: 1.22".data =
    ["go".data] := by decide
example : detectLanguagesFromWorkflow "PIP install && NPM ci".data =
    ["node".data, "python".data] := by decide
example : detectLanguagesFromWorkflow "".data = [] := by decide

theorem uniqueLoop_eq_append (l : List GoString) :
    ∀ (keys acc : List GoString),
      uniqueLoop keys acc l = acc ++ uniqueLoop keys [] l := by
  induction l with
  | nil => intro keys acc; simp [uniqueLoop]
  | cons x xs ih =>
    intro keys acc
    by_cases h : x ∈ keys
    · simp only [uniqueLoop, if_pos h]
      exact ih keys acc
    · simp only [uniqueLoop, if_neg h]
      rw [ih (x :: keys) (acc ++ [x]), ih (x :: keys) ([] ++ [x])]
      simp

theorem uniqueLoop_mem (l : List GoString) :
    ∀ (keys : List GoString) (x : GoString),
      x ∈ uniqueLoop keys [] l ↔ x ∈ l ∧ x ∉ keys := by
  induction l with
  | nil => intro keys x; simp [uniqueLoop]
  | cons y ys ih =>
    intro keys x
    by_cases h : y ∈ keys
    · rw [show uniqueLoop keys [] (y :: ys) = uniqueLoop keys [] ys from by
        simp [uniqueLoop, h]]
      rw [ih]
      constructor
      · rintro ⟨hm, hk⟩
        exact ⟨List.mem_cons_of_mem y hm, hk⟩
      · rintro ⟨hm, hk⟩
        rcases List.mem_cons.mp hm with rfl | hm2
        · exact absurd h hk
        · exact ⟨hm2, hk⟩
    · rw [show uniqueLoop keys [] (y :: ys) = uniqueLoop (y :: keys) ([] ++ [y]) ys from by
        simp [uniqueLoop, h]]
      rw [List.nil_append, uniqueLoop_eq_append ys (y :: keys) [y]]
      constructor
      · intro hm
        rcases List.mem_append.mp hm with hm1 | hm2
        · have hxy : x = y := by simpa using hm1
          subst hxy
          exact ⟨List.mem_cons_self x ys, h⟩
        · obtain ⟨hys, hnk⟩ := (ih (y :: keys) x).mp hm2
          exact ⟨List.mem_cons_of_mem y hys,
            fun hk => hnk (List.mem_cons_of_mem y hk)⟩
      · rintro ⟨hm, hk⟩
        by_cases hxy : x = y
        · subst hxy
          exact List.mem_append.mpr (Or.inl (List.mem_singleton.mpr rfl))
        · rcases List.mem_cons.mp hm with h1 | h1
          · exact absurd h1 hxy
          · refine List.mem_append.mpr (Or.inr ((ih (y :: keys) x).mpr ⟨h1, ?_⟩))
            intro hc
            rcases List.mem_cons.mp hc with h2 | h2
            · exact hxy h2
            · exact hk h2

theorem uniqueLoop_nodup (l : List GoString) :
    ∀ (keys : List GoString), (uniqueLoop keys [] l).Nodup := by
  induction l with
  | nil => intro keys; simp [uniqueLoop]
  | cons y ys ih =>
    intro keys
    by_cases h : y ∈ keys
    · rw [show uniqueLoop keys [] (y :: ys) = uniqueLoop keys [] ys from by
        simp [uniqueLoop, h]]
      exact ih keys
    · rw [show uniqueLoop keys [] (y :: ys) = uniqueLoop (y :: keys) ([] ++ [y]) ys from by
        simp [uniqueLoop, h]]
      rw [List.nil_append, uniqueLoop_eq_append ys (y :: keys) [y]]
      rw [List.singleton_append, List.nodup_cons]
      constructor
      · intro hy
        have := (uniqueLoop_mem ys (y :: keys) y).mp hy
        exact this.2 (List.mem_cons_self y keys)
      · exact ih (y :: keys)

theorem unique_mem (l : List GoString) (x : GoString) : x ∈ unique l ↔ x ∈ l := by
  unfold unique
  rw [uniqueLoop_mem]
  simp

theorem unique_nodup (l : List GoString) : (unique l).Nodup := uniqueLoop_nodup l []

theorem detect_foldl (content : GoString) :
    ∀ (table : List (GoString × List GoString)) (acc : List GoString),
      table.foldl
        (fun acc p =>
          if p.2.any (fun pat => goContains (goToLower content) (goToLower pat)) then
            acc ++ [p.1]
          else acc) acc =
        acc ++ (table.filter
          (fun p => p.2.any (fun pat => goContains (goToLower content) (goToLower pat)))).map
            Prod.fst := by
  intro table
  induction table with
  | nil => intro acc; simp
  | cons p ps ih =>
    intro acc
    by_cases h : p.2.any (fun pat => goContains (goToLower content) (goToLower pat))
    · rw [List.foldl_cons]
      simp only [h, if_true]
      rw [ih (acc ++ [p.1]), List.filter_cons, if_pos (by simpa using h)]
      simp
    · rw [List.foldl_cons]
      simp only [h, Bool.false_eq_true, if_false]
      rw [ih acc, List.filter_cons, if_neg (by simpa using h)]

/-- Claim C8: the language detector returns exactly the set of ecosystem ids
one of whose signature substrings occurs case-insensitively in the text, the
result has no duplicate ids, and empty input yields an empty result. -/
theorem detectLanguagesFromWorkflow_set_spec (content : GoString) :
    (∀ lang, lang ∈ detectLanguagesFromWorkflow content ↔
      ∃ pats, (lang, pats) ∈ languagePatterns ∧
        ∃ pat ∈ pats, goContains (goToLower content) (goToLower pat) = true) ∧
    (detectLanguagesFromWorkflow content).Nodup ∧
    detectLanguagesFromWorkflow [] = [] := by
  refine ⟨?_, ?_, by decide⟩
  · intro lang
    simp only [detectLanguagesFromWorkflow]
    rw [detect_foldl content languagePatterns [], List.nil_append, unique_mem]
    rw [List.mem_map]
    constructor
    · rintro ⟨p, hp, hfst⟩
      obtain ⟨hmem, hcond⟩ := List.mem_filter.mp hp
      obtain ⟨pat, hpat, hcont⟩ := List.any_eq_true.mp hcond
      refine ⟨p.2, ?_, pat, hpat, hcont⟩
      have : p = (lang, p.2) := by
        rw [← hfst]
      rw [← this]
      exact hmem
    · rintro ⟨pats, hmem, pat, hpat, hcont⟩
      refine ⟨(lang, pats), List.mem_filter.mpr ⟨hmem, ?_⟩, rfl⟩
      exact List.any_eq_true.mpr ⟨pat, hpat, hcont⟩
  · simp only [detectLanguagesFromWorkflow]
    exact unique_nodup _

/-! ### RecommendationAggregator: deduplicateCacheRecommendations (analyzer.go, lines 1148-1161) -/

/-- models.CacheRecommendation.  The Example field is named exampleText. -/
structure CacheRecommendation where
  path : GoString
  description : GoString
  impact : GoString
  exampleText : GoString
deriving DecidableEq

/-- The deduplication key: the Path and Description strings concatenated. -/
def recKey (r : CacheRecommendation) : GoString := r.path ++ r.description

/-- The loop of deduplicateCacheRecommendations; the seen map is modelled as
the list of keys inserted so far. -/
def dedupLoop (seen : List GoString) (acc : List CacheRecommendation) :
    List CacheRecommendation → List CacheRecommendation
  | [] => acc
  | r :: rest =>
    if recKey r ∈ seen then dedupLoop seen acc rest
    else dedupLoop (recKey r :: seen) (acc ++ [r]) rest

/-- deduplicateCacheRecommendations: keeps the first recommendation for each
Path ++ Description key, in input order. -/
def deduplicateCacheRecommendations (recommendations : List CacheRecommendation) :
    List CacheRecommendation :=
  dedupLoop [] [] recommendations

theorem dedupLoop_eq_append (l : List CacheRecommendation) :
    ∀ (seen : List GoString) (acc : List CacheRecommendation),
      dedupLoop seen acc l = acc ++ dedupLoop seen [] l := by
  induction l with
  | nil => intro seen acc; simp [dedupLoop]
  | cons r rest ih =>
    intro seen acc
    by_cases h : recKey r ∈ seen
    · simp only [dedupLoop, if_pos h]
      exact ih seen acc
    · simp only [dedupLoop, if_neg h]
      rw [ih (recKey r :: seen) (acc ++ [r]), ih (recKey r :: seen) ([] ++ [r])]
      simp

theorem dedupLoop_sublist (l : List CacheRecommendation) :
    ∀ (seen : List GoString), (dedupLoop seen [] l).Sublist l := by
  induction l with
  | nil => intro seen; simp [dedupLoop]
  | cons r rest ih =>
    intro seen
    by_cases h : recKey r ∈ seen
    · rw [show dedupLoop seen [] (r :: rest) = dedupLoop seen [] rest from by
        simp [dedupLoop, h]]
      exact List.Sublist.cons r (ih seen)
    · rw [show dedupLoop seen [] (r :: rest) = dedupLoop (recKey r :: seen) ([] ++ [r]) rest

        from by simp [dedupLoop, h]]
      rw [List.nil_append, dedupLoop_eq_append rest (recKey r :: seen) [r],
        List.singleton_append]
      exact List.Sublist.cons₂ r (ih (recKey r :: seen))

theorem dedupLoop_key_not_seen (l : List CacheRecommendation) :
    ∀ (seen : List GoString), ∀ s ∈ dedupLoop seen [] l, recKey s ∉ seen := by
  induction l with
  | nil => intro seen s hs; simp [dedupLoop] at hs
  | cons r rest ih =>
    intro seen s hs
    by_cases h : recKey r ∈ seen
    · rw [show dedupLoop seen [] (r :: rest) = dedupLoop seen [] rest from by
        simp [dedupLoop, h]] at hs
      exact ih seen s hs
    · rw [show dedupLoop seen [] (r :: rest) = dedupLoop (recKey r :: seen) ([] ++ [r]) rest
        from by simp [dedupLoop, h], List.nil_append,
        dedupLoop_eq_append rest (recKey r :: seen) [r], List.singleton_append,
        List.mem_cons] at hs
      rcases hs with rfl | hs
      · exact h
      · intro hk
        exact ih (recKey r :: seen) s hs (List.mem_cons_of_mem (recKey r) hk)

theorem dedupLoop_keys_nodup (l : List CacheRecommendation) :
    ∀ (seen : List GoString),
      (dedupLoop seen [] l).Pairwise (fun a b => recKey a ≠ recKey b) := by
  induction l with
  | nil => intro seen; simp [dedupLoop]
  | cons r rest ih =>
    intro seen
    by_cases h : recKey r ∈ seen
    · rw [show dedupLoop seen [] (r :: rest) = dedupLoop seen [] rest from by
        simp [dedupLoop, h]]
      exact ih seen
    · rw [show dedupLoop seen [] (r :: rest) = dedupLoop (recKey r :: seen) ([] ++ [r]) rest
        from by simp [dedupLoop, h], List.nil_append,
        dedupLoop_eq_append rest (recKey r :: seen) [r], List.singleton_append]
      rw [List.pairwise_cons]
      constructor
      · intro s hs he
        exact dedupLoop_key_not_seen rest (recKey r :: seen) s hs
          (by rw [← he]; exact List.mem_cons_self (recKey r) seen)
      · exact ih (recKey r :: seen)

theorem dedupLoop_covers (l : List CacheRecommendation) :
    ∀ (seen : List GoString), ∀ r ∈ l,
      recKey r ∈ seen ∨ ∃ s ∈ dedupLoop seen [] l, recKey s = recKey r := by
  induction l with
  | nil => intro seen r hr; simp at hr
  | cons q rest ih =>
    intro seen r hr
    by_cases h : recKey q ∈ seen
    · rw [show dedupLoop seen [] (q :: rest) = dedupLoop seen [] rest from by
        simp [dedupLoop, h]]
      rcases List.mem_cons.mp hr with rfl | hr2
      · exact Or.inl h
      · exact ih seen r hr2
    · rw [show dedupLoop seen [] (q :: rest) = dedupLoop (recKey q :: seen) ([] ++ [q]) rest
        from by simp [dedupLoop, h], List.nil_append,
        dedupLoop_eq_append rest (recKey q :: seen) [q], List.singleton_append]
      rcases List.mem_cons.mp hr with rfl | hr2
      · exact Or.inr ⟨r, List.mem_cons_self r _, rfl⟩
      · rcases ih (recKey q :: seen) r hr2 with hseen | ⟨s, hs, he⟩
        · rcases List.mem_cons.mp hseen with he2 | hseen2
          · exact Or.inr ⟨q, List.mem_cons_self q _, he2.symm⟩
          · exact Or.inl hseen2
        · exact Or.inr ⟨s, List.mem_cons_of_mem q hs, he⟩

theorem dedupLoop_first_seen (l : List CacheRecommendation) :
    ∀ (seen : List GoString), ∀ s ∈ dedupLoop seen [] l,
      l.find? (fun r => recKey r == recKey s) = some s := by
  induction l with
  | nil => intro seen s hs; simp [dedupLoop] at hs
  | cons q rest ih =>
    intro seen s hs
    by_cases h : recKey q ∈ seen
    · rw [show dedupLoop seen [] (q :: rest) = dedupLoop seen [] rest from by
        simp [dedupLoop, h]] at hs
      have hne : recKey q ≠ recKey s := by
        intro he
        exact dedupLoop_key_not_seen rest seen s hs (by rw [← he]; exact h)
      rw [List.find?_cons_of_neg rest (by simpa using hne)]
      exact ih seen s hs
    · rw [show dedupLoop seen [] (q :: rest) = dedupLoop (recKey q :: seen) ([] ++ [q]) rest
        from by simp [dedupLoop, h], List.nil_append,
        dedupLoop_eq_append rest (recKey q :: seen) [q], List.singleton_append,
        List.mem_cons] at hs
      rcases hs with rfl | hs
      · rw [List.find?_cons_of_pos rest (by simp)]
      · have hne : recKey q ≠ recKey s := by
          intro he
          exact dedupLoop_key_not_seen rest (recKey q :: seen) s hs
            (by rw [← he]; exact List.mem_cons_self (recKey q) seen)
        rw [List.find?_cons_of_neg rest (by simpa using hne)]
        exact ih (recKey q :: seen) s hs

/-- Claim C7 fails on the code: the dedup key is the bare concatenation
Path ++ Description, so the distinct pairs ("a", "bc") and ("ab", "c")
collide.  With input [("a","bc"), ("ab","c"), ("ab","c")] the pair
("ab","c") occurs twice, yet no entry with that pair is retained at all —
the first-seen entry of the pair is dropped. -/
theorem deduplicateCacheRecommendations_pair_cex :
    deduplicateCacheRecommendations
        [⟨"a".data, "bc".data, [], []⟩, ⟨"ab".data, "c".data, [], []⟩,
         ⟨"ab".data, "c".data, [], []⟩] =
      [⟨"a".data, "bc".data, [], []⟩] ∧
    (List.count (⟨"ab".data, "c".data, [], []⟩ : CacheRecommendation)
        [⟨"a".data, "bc".data, [], []⟩, ⟨"ab".data, "c".data, [], []⟩,
         ⟨"ab".data, "c".data, [], []⟩] = 2) ∧
    (∀ s ∈ deduplicateCacheRecommendations
        [⟨"a".data, "bc".data, [], []⟩, ⟨"ab".data, "c".data, [], []⟩,
         ⟨"ab".data, "c".data, [], []⟩],
      ¬(s.path = "ab".data ∧ s.description = "c".data)) := by
  refine ⟨by decide, by decide, by decide⟩

/-- Claim C7 amended: deduplication is by the concatenated key
Path ++ Description — the output is a subsequence of the input (original
relative order), no two output entries share a key (hence no two share the
(path, description) pair), every input key is represented, and each output
entry is the first input entry bearing its key; first-seen-per-pair holds
whenever no two distinct pairs collide on the concatenation. -/
theorem deduplicateCacheRecommendations_key_spec
    (recommendations : List CacheRecommendation) :
    (deduplicateCacheRecommendations recommendations).Sublist recommendations ∧
    (deduplicateCacheRecommendations recommendations).Pairwise
      (fun a b => recKey a ≠ recKey b) ∧
    (deduplicateCacheRecommendations recommendations).Pairwise
      (fun a b => ¬(a.path = b.path ∧ a.description = b.description)) ∧
    (∀ r ∈ recommendations,
      ∃ s ∈ deduplicateCacheRecommendations recommendations, recKey s = recKey r) ∧
    (∀ s ∈ deduplicateCacheRecommendations recommendations,
      recommendations.find? (fun r => recKey r == recKey s) = some s) := by
  refine ⟨dedupLoop_sublist recommendations [], dedupLoop_keys_nodup recommendations [],
    ?_, ?_, dedupLoop_first_seen recommendations []⟩
  · refine List.Pairwise.imp ?_ (dedupLoop_keys_nodup recommendations [])
    intro a b hne hpair
    exact hne (by unfold recKey; rw [hpair.1, hpair.2])
  · intro r hr
    rcases dedupLoop_covers recommendations [] r hr with hseen | hok
    · simp at hseen
    · exact hok

/-! ### Report metrics: calculateMetrics (src/unnamed/part_003, lines 218-246) -/

/-- The Metrics block of models.PerformanceReport. -/
structure Metrics where
  averageStepDuration : Int
  maxStepDuration : Int
  totalSteps : Int
  failedSteps : Int
deriving DecidableEq

/-- Whether a step counts as failed in calculateMetrics: its lowercased name
contains "failed". -/
def isFailedStep (s : StepAnalysis) : Bool := goContains (goToLower s.name) "failed".data

/-- One iteration of the loop of calculateMetrics, accumulating
(totalDuration, maxDuration, failedSteps). -/
def metricsStep (acc : Int × Int × Nat) (s : StepAnalysis) : Int × Int × Nat :=
  (wrap64 (acc.1 + s.executionTime),
   if s.executionTime > acc.2.1 then s.executionTime else acc.2.1,
   if isFailedStep s then acc.2.2 + 1 else acc.2.2)

/-- calculateMetrics, as the function of the SlowSteps list it reads. -/
def calculateMetrics (slowSteps : List StepAnalysis) : Metrics :=
  if slowSteps = [] then ⟨0, 0, 0, 0⟩
  else
    let r := slowSteps.foldl metricsStep (0, 0, 0)
    ⟨Int.tdiv r.1 (slowSteps.length : Int), r.2.1, (slowSteps.length : Int), (r.2.2 : Int)⟩

theorem metrics_foldl_decomp (l : List StepAnalysis) :
    ∀ (a m : Int) (f : Nat),
      l.foldl metricsStep (a, m, f) =
        (l.foldl (fun acc s => wrap64 (acc + s.executionTime)) a,
         l.foldl (fun acc t => if t.executionTime > acc then t.executionTime else acc) m,
         f + (l.filter isFailedStep).length) := by
  induction l with
  | nil => intro a m f; simp
  | cons s rest ih =>
    intro a m f
    rw [List.foldl_cons, List.foldl_cons, List.foldl_cons]
    show List.foldl metricsStep
        (wrap64 (a + s.executionTime),
         if s.executionTime > m then s.executionTime else m,
         if isFailedStep s then f + 1 else f) rest = _
    rw [ih]
    by_cases hf : isFailedStep s
    · simp [hf, List.filter_cons]
      omega
    · simp [hf, List.filter_cons]

theorem wrap64_eq_self {x : Int} (h0 : 0 ≤ x) (h1 : x ≤ int64Max) : wrap64 x = x := by
  have e63 : (2 : Int) ^ 63 = 9223372036854775808 := by norm_num
  have emax : int64Max = 9223372036854775807 := by norm_num [int64Max]
  have e64 : (2 : Int) ^ 64 = 18446744073709551616 := by norm_num
  unfold wrap64
  rw [e63, e64]
  rw [Int.emod_eq_of_lt (by omega) (by omega)]
  omega

theorem foldl_wrapAdd_eq_sum (l : List StepAnalysis) :
    ∀ (a : Int), 0 ≤ a → (∀ s ∈ l, 0 ≤ s.executionTime) →
      a + (l.map StepAnalysis.executionTime).sum ≤ int64Max →
      l.foldl (fun acc s => wrap64 (acc + s.executionTime)) a =
        a + (l.map StepAnalysis.executionTime).sum := by
  induction l with
  | nil => intro a _ _ _; simp
  | cons s rest ih =>
    intro a ha hall hsum
    have hs0 : 0 ≤ s.executionTime := hall s (List.mem_cons_self s rest)
    have hrest0 : 0 ≤ (rest.map StepAnalysis.executionTime).sum := by
      refine List.sum_nonneg ?_
      intro x hx
      obtain ⟨t, ht, rfl⟩ := List.mem_map.mp hx
      exact hall t (List.mem_cons_of_mem s ht)
    rw [List.map_cons, List.sum_cons] at hsum
    rw [List.foldl_cons]
    have hw : wrap64 (a + s.executionTime) = a + s.executionTime :=
      wrap64_eq_self (by omega) (by omega)
    rw [hw, ih (a + s.executionTime) (by omega)
      (fun t ht => hall t (List.mem_cons_of_mem s ht)) (by omega)]
    rw [List.map_cons, List.sum_cons]
    ring

theorem foldl_maxStep_le (l : List StepAnalysis) :
    ∀ (m : Int),
      m ≤ l.foldl (fun acc t => if t.executionTime > acc then t.executionTime else acc) m := by
  induction l with
  | nil => intro m; simp
  | cons s rest ih =>
    intro m
    rw [List.foldl_cons]
    by_cases h : s.executionTime > m
    · rw [if_pos h]
      exact le_trans (le_of_lt h) (ih s.executionTime)
    · rw [if_neg h]
      exact ih m

theorem foldl_maxStep_ge (l : List StepAnalysis) :
    ∀ (m : Int), ∀ s ∈ l,
      s.executionTime ≤
        l.foldl (fun acc t => if t.executionTime > acc then t.executionTime else acc) m := by
  induction l with
  | nil => intro m s hs; simp at hs
  | cons q rest ih =>
    intro m s hs
    rw [List.foldl_cons]
    rcases List.mem_cons.mp hs with rfl | hs2
    · by_cases h : s.executionTime > m
      · rw [if_pos h]
        exact foldl_maxStep_le rest s.executionTime
      · rw [if_neg h]
        exact le_trans (not_lt.mp h) (foldl_maxStep_le rest m)
    · by_cases h : q.executionTime > m
      · rw [if_pos h]
        exact ih q.executionTime s hs2
      · rw [if_neg h]
        exact ih m s hs2

theorem foldl_maxStep_mem (l : List StepAnalysis) :
    ∀ (m : Int),
      l.foldl (fun acc t => if t.executionTime > acc then t.executionTime else acc) m = m ∨
      l.foldl (fun acc t => if t.executionTime > acc then t.executionTime else acc) m ∈
        l.map StepAnalysis.executionTime := by
  induction l with
  | nil => intro m; exact Or.inl rfl
  | cons q rest ih =>
    intro m
    rw [List.foldl_cons, List.map_cons]
    by_cases h : q.executionTime > m
    · rw [if_pos h]
      rcases ih q.executionTime with he | hm
      · exact Or.inr (by rw [he]; exact List.mem_cons_self _ _)
      · exact Or.inr (List.mem_cons_of_mem _ hm)
    · rw [if_neg h]
      rcases ih m with he | hm
      · exact Or.inl he
      · exact Or.inr (List.mem_cons_of_mem _ hm)

/-- Claim C9: the metrics are a function of SlowSteps alone (calculateMetrics
takes nothing else); all four are zero for an empty list; for a non-empty
list of genuine (non-negative, within-64-bit-total) durations the average is
the truncated quotient of the duration sum by the step count, the total step
count is the length, the failed count is the number of steps whose lowercased
name contains "failed", and the maximum is the largest step duration. -/
theorem calculateMetrics_spec (ss : List StepAnalysis) :
    calculateMetrics [] = ⟨0, 0, 0, 0⟩ ∧
    (ss ≠ [] → (∀ s ∈ ss, 0 ≤ s.executionTime) →
      (ss.map StepAnalysis.executionTime).sum ≤ int64Max →
      (calculateMetrics ss).averageStepDuration =
          Int.tdiv ((ss.map StepAnalysis.executionTime).sum) (ss.length : Int) ∧
        (calculateMetrics ss).totalSteps = (ss.length : Int) ∧
        (calculateMetrics ss).failedSteps = ((ss.filter isFailedStep).length : Int) ∧
        (calculateMetrics ss).maxStepDuration ∈ ss.map StepAnalysis.executionTime ∧
        (∀ s ∈ ss, s.executionTime ≤ (calculateMetrics ss).maxStepDuration)) := by
  constructor
  · rfl
  · intro hne hpos hsum
    have hcm : calculateMetrics ss =
        ⟨Int.tdiv (ss.foldl (fun acc s => wrap64 (acc + s.executionTime)) 0)
            (ss.length : Int),
         ss.foldl (fun acc t => if t.executionTime > acc then t.executionTime else acc) 0,
         (ss.length : Int), ((ss.filter isFailedStep).length : Int)⟩ := by
      unfold calculateMetrics
      rw [if_neg hne]
      show (⟨Int.tdiv (List.foldl metricsStep (0, 0, 0) ss).1 (ss.length : Int),
             (List.foldl metricsStep (0, 0, 0) ss).2.1,
             (ss.length : Int),
             ((List.foldl metricsStep (0, 0, 0) ss).2.2 : Int)⟩ : Metrics) = _
      rw [metrics_foldl_decomp ss 0 0 0]
      simp
    have hsumeq : ss.foldl (fun acc s => wrap64 (acc + s.executionTime)) 0 =
        (ss.map StepAnalysis.executionTime).sum := by
      rw [foldl_wrapAdd_eq_sum ss 0 le_rfl hpos (by simpa using hsum)]
      ring
    refine ⟨?_, ?_, ?_, ?_, ?_⟩
    · rw [hcm, hsumeq]
    · rw [hcm]
    · rw [hcm]
    · rw [hcm]
      rcases foldl_maxStep_mem ss 0 with he | hm
      · rcases ss with _ | ⟨s0, rest⟩
        · exact absurd rfl hne
        · have hle : s0.executionTime ≤ 0 := by
            rw [← he]
            exact foldl_maxStep_ge (s0 :: rest) 0 s0 (List.mem_cons_self s0 rest)
          have hge : 0 ≤ s0.executionTime := hpos s0 (List.mem_cons_self s0 rest)
          have h0 : s0.executionTime = 0 := le_antisymm hle hge
          show (List.foldl _ 0 (s0 :: rest)) ∈ _
          rw [he, List.map_cons, ← h0]
          exact List.mem_cons_self _ _
      · exact hm
    · intro s hs
      rw [hcm]
      exact foldl_maxStep_ge ss 0 s hs

/-! ### AnalysisOrchestrator: the select at the end of Analyze (analyzer.go, lines 337-400) -/

/-- models.DockerOptimization. -/
structure DockerOptimization where
  issue : GoString
  suggestion : GoString
  improvement : GoString
deriving DecidableEq

/-- models.WorkflowAnalysis. -/
structure WorkflowAnalysis where
  parallelJobs : Bool
  recommendations : List GoString
  runnerOptimizations : List GoString
  securityTips : List GoString
deriving DecidableEq

/-- models.PerformanceReport. -/
structure PerformanceReport where
  repository : GoString
  workflowFile : GoString
  totalExecutionTime : Int
  slowSteps : List StepAnalysis
  cacheRecommendations : List CacheRecommendation
  dockerOptimizations : List DockerOptimization
  costSavingTips : List GoString
  workflowAnalysis : Option WorkflowAnalysis
  metrics : Metrics
deriving DecidableEq

/-- Which of the three events the select statement in Analyze observes
first: the pipeline goroutine finishing (with the error it sent on errCh),
the deadline of the timeout context expiring, or cancellation of the parent
context. -/
inductive AnalyzeEvent where
  | pipelineDone (err : Option GoString)
  | deadlineExceeded
  | canceled

/-- The timeout error text of Analyze; mrep renders timeout.Minutes(). -/
def timeoutMsg (mrep : GoString) : GoString :=
  "analysis timed out after ".data ++ mrep ++ " minutes".data

/-- The stage-failure error text of Analyze. -/
def stageFailMsg (e : GoString) : GoString := "analysis failed: ".data ++ e

/-- ctx.Err() when the parent context was canceled. -/
def canceledMsg : GoString := "context canceled".data

/-- The select statement at the end of Analyze: the (report, error) pair the
orchestrator returns for each winning event.  report is the report value the
pipeline filled. -/
def analyzeOutcome (report : PerformanceReport) (mrep : GoString) :
    AnalyzeEvent → Option PerformanceReport × Option GoString
  | .pipelineDone none => (some report, none)
  | .pipelineDone (some e) => (none, some (stageFailMsg e))
  | .deadlineExceeded => (none, some (timeoutMsg mrep))
  | .canceled => (none, some canceledMsg)

/-- Claim C6: whenever Analyze returns an error — stage failure, deadline
expiry or cancellation — the returned report is nil, never a partial report;
and the timeout error is distinct from every stage-failure error and from
the cancellation error. -/
theorem analyzeOutcome_failure_nil (report : PerformanceReport) (mrep : GoString) :
    (∀ ev, (analyzeOutcome report mrep ev).2 ≠ none →
      (analyzeOutcome report mrep ev).1 = none) ∧
    (∀ e, timeoutMsg mrep ≠ stageFailMsg e) ∧
    timeoutMsg mrep ≠ canceledMsg := by
  refine ⟨?_, ?_, ?_⟩
  · intro ev h
    cases ev with
    | pipelineDone err =>
      cases err with
      | none => exact absurd rfl h
      | some e => rfl
    | deadlineExceeded => rfl
    | canceled => rfl
  · intro e h
    have h10 : ("analysis t".data : List Char) = "analysis f".data :=
      congrArg (List.take 10) h
    exact absurd h10 (by decide)
  · intro h
    have h10 : ("analysis t".data : List Char) = "context ca".data :=
      congrArg (List.take 10) h
    exact absurd h10 (by decide)
